import Mathlib

/-!
Verification of the gitwapp repository state engine.

This file gives a shallow embedding, in Lean, of the core logic of the
gitwapp web application (a Go program exposing git working-copy state over
HTTP), and proves properties of that embedding.

The embedded pieces are:

* the path-containment check of the file-content accessor
  (internal/api/handlers_git.go, handleGetFile), together with models of
  Go path/filepath.Clean, path/filepath.Join and strings.HasPrefix;
* the ahead/behind commit-graph traversal (internal/git/git.go,
  countCommitsBetween) and the status computation (GetStatus);
* the stage/unstage index transitions (StageFile, UnstageFile);
* the commit pipeline (handleCommit plus the git engine commit call);
* push authentication resolution (Push, getAuth, getHTTPSAuth).

Strings are modelled as Lean String values; where byte-level operations
matter (prefix checks, path cleaning) we work on the underlying character
list, which agrees with Go byte semantics on the ASCII inputs considered.
Machine integers do not overflow in any embedded computation, so Nat is
used throughout.
-/

namespace Gitwapp

/-! ## Go path/filepath model (Unix rules)

These definitions embed the Go standard library functions used by
handleGetFile: filepath.Clean, filepath.Join and strings.HasPrefix.
-/

/-- Split a character list at every slash character. Models the component
decomposition used by Go path cleaning: a path `a/b//c` yields components
`a`, `b`, ``, `c`. -/
def splitSlash : List Char → List (List Char)
  | [] => [[]]
  | c :: rest =>
    if c = '/' then [] :: splitSlash rest
    else match splitSlash rest with
      | [] => [[c]]
      | comp :: comps => (c :: comp) :: comps

/-- Core loop of Go filepath.Clean: process the non-empty, non-dot
components left to right keeping an output stack (held reversed in `acc`).
A `..` cancels the preceding component unless the output is empty or also
ends in `..`; a `..` at the root of a rooted path is dropped. -/
def cleanComps : Bool → List (List Char) → List (List Char) → List (List Char)
  | _, [], acc => acc.reverse
  | rooted, c :: rest, acc =>
    if c = ['.', '.'] then
      match acc with
      | [] =>
        if rooted then cleanComps rooted rest []
        else cleanComps rooted rest [c]
      | a :: acc2 =>
        if a = ['.', '.'] then cleanComps rooted rest (c :: a :: acc2)
        else cleanComps rooted rest acc2
    else cleanComps rooted rest (c :: acc)

/-- Join components with slashes (inverse of `splitSlash` on clean output). -/
def joinComps : List (List Char) → List Char
  | [] => []
  | [c] => c
  | c :: rest => c ++ '/' :: joinComps rest

/-- Embedding of Go path/filepath.Clean (Unix rules) on character lists:
collapse duplicate slashes, drop `.` components, resolve `..` lexically,
return `.` for an empty result, and preserve rootedness. -/
def cleanL (p : List Char) : List Char :=
  if p = [] then ['.']
  else
    let rooted := decide (p.head? = some '/')
    let comps := (splitSlash p).filter (fun c => decide (c ≠ [] ∧ c ≠ ['.']))
    let out := cleanComps rooted comps []
    if rooted then '/' :: joinComps out
    else if joinComps out = [] then ['.'] else joinComps out

/-- Embedding of Go path/filepath.Clean on String. -/
def clean (p : String) : String := ⟨cleanL p.data⟩

/-- Embedding of Go strings.HasPrefix: byte-level prefix test. -/
def goHasPref (s pre : String) : Bool := List.isPrefixOf pre.data s.data

/-- Embedding of Go path/filepath.Join for two elements: empty elements are
skipped and the concatenation is cleaned; all-empty input yields the empty
string without cleaning. -/
def joinPath (a b : String) : String :=
  if a = "" then (if b = "" then "" else clean b)
  else if b = "" then clean a
  else clean (a ++ "/" ++ b)

/-- The resolved target path computed by handleGetFile
(internal/api/handlers_git.go): filepath.Clean(filepath.Join(repo.Path, file)). -/
def targetPath (repoPath file : String) : String :=
  clean (joinPath repoPath file)

/-- The security check of handleGetFile: the request is allowed iff the
resolved target path has filepath.Clean(repo.Path) as a string prefix
(strings.HasPrefix). -/
def pathAllowed (repoPath file : String) : Bool :=
  goHasPref (targetPath repoPath file) (clean repoPath)

/-- Definition following the spec: a resolved path lies within the
repository root iff it equals the cleaned root or lives strictly below it,
that is, the cleaned root followed by a path separator is a prefix. This is
the containment property the spec requires the accessor to enforce, stated
independently of the code's own check for comparison with `pathAllowed`. -/
def withinRoot (root resolved : String) : Bool :=
  decide (resolved = clean root) ||
    List.isPrefixOf ((clean root).data ++ ['/']) resolved.data

/-- Errors surfaced by the file-content accessor. -/
inductive FileErr
  | fileParamMissing
  | pathTraversalRejected
  | fileNotFound
deriving DecidableEq, Repr

/-- Embedding of handleGetFile (internal/api/handlers_git.go): reject an
empty file parameter, then apply the prefix security check, then read the
target path from the filesystem `fs` (a map from absolute path to file
contents). The read happens only after the check passes. -/
def handleGetFile (fs : String → Option String) (repoPath file : String) :
    Except FileErr String :=
  if file = "" then .error .fileParamMissing
  else if pathAllowed repoPath file = false then .error .pathTraversalRejected
  else
    match fs (targetPath repoPath file) with
    | none => .error .fileNotFound
    | some content => .ok content

/-! ## Commit graph model and the ahead/behind traversal

A commit graph is an association list from commit identifier to parent
list, modelling the repository object store consulted by go-git's
commit iterator. `commitLog` embeds the depth-first pre-order commit
iterator used by repository.Log with default options (the iterator behind
countCommitsBetween in internal/git/git.go): visit the top of the stack if
unseen, then its parents, never revisiting a commit.
-/

/-- A commit graph: association list from commit id to its parent ids. -/
abbrev CommitGraph := List (Nat × List Nat)

/-- Parents of a commit: object-store lookup, empty for an unknown id. -/
def parentsOf (g : CommitGraph) (c : Nat) : List Nat :=
  (g.lookup c).getD []

/-- Number of commits of the graph not yet visited; used as the primary
termination measure of the traversal. -/
def unseenCount (g : CommitGraph) (seen : List Nat) : Nat :=
  ((g.map Prod.fst).filter (fun n => decide (¬ n ∈ seen))).length

lemma parentsOf_not_key {g : CommitGraph} {c : Nat} (h : ¬ c ∈ g.map Prod.fst) :
    parentsOf g c = [] := by
  induction g with
  | nil => rfl
  | cons kv rest ih =>
    simp only [List.map_cons, List.mem_cons, not_or] at h
    have hbeq : (c == kv.1) = false := beq_eq_false_iff_ne.mpr h.1
    have ih2 := ih h.2
    simp only [parentsOf, List.lookup, hbeq] at ih2 ⊢
    exact ih2

lemma unseenCount_cons_not_key {g : CommitGraph} {c : Nat} {seen : List Nat}
    (h : ¬ c ∈ g.map Prod.fst) : unseenCount g (c :: seen) = unseenCount g seen := by
  unfold unseenCount
  rw [List.filter_congr]
  intro x hx
  have hxc : x ≠ c := by rintro rfl; exact h hx
  simp [List.mem_cons, hxc]

lemma filter_notmem_cons_length_lt {l : List Nat} {c : Nat} {seen : List Nat}
    (hc : c ∈ l) (hs : ¬ c ∈ seen) :
    (l.filter (fun n => decide (¬ n ∈ c :: seen))).length <
      (l.filter (fun n => decide (¬ n ∈ seen))).length := by
  have hmono : ∀ xs : List Nat,
      (xs.filter (fun n => decide (¬ n ∈ c :: seen))).length ≤
        (xs.filter (fun n => decide (¬ n ∈ seen))).length := by
    intro xs
    apply List.Sublist.length_le
    apply List.monotone_filter_right
    intro a ha
    simp only [List.mem_cons, not_or, decide_eq_true_eq] at ha
    simp [ha.2]
  induction l with
  | nil => cases hc
  | cons x xs ih =>
    by_cases hxc : x = c
    · subst hxc
      rw [List.filter_cons, List.filter_cons]
      have h1 : (decide (¬ x ∈ x :: seen)) = false := by simp
      have h2 : (decide (¬ x ∈ seen)) = true := by simp [hs]
      simp only [h1, h2, Bool.false_eq_true, if_false, if_true, List.length_cons]
      have := hmono xs
      omega
    · have hcxs : c ∈ xs := by
        rcases List.mem_cons.mp hc with h | h
        · exact absurd h.symm hxc
        · exact h
      have hx : (decide (¬ x ∈ c :: seen)) = (decide (¬ x ∈ seen)) := by
        simp only [List.mem_cons, not_or, decide_eq_decide]
        constructor
        · exact fun h => h.2
        · exact fun h => ⟨hxc, h⟩
      rw [List.filter_cons, List.filter_cons]
      simp only [hx]
      cases hb : decide (¬ x ∈ seen) with
      | false =>
        simp only [Bool.false_eq_true, if_false]
        exact ih hcxs
      | true =>
        simp only [if_true, List.length_cons]
        exact Nat.succ_lt_succ (ih hcxs)

lemma unseenCount_cons_key {g : CommitGraph} {c : Nat} {seen : List Nat}
    (hk : c ∈ g.map Prod.fst) (hs : ¬ c ∈ seen) :
    unseenCount g (c :: seen) < unseenCount g seen :=
  filter_notmem_cons_length_lt hk hs

/-- Embedding of the go-git depth-first pre-order commit iterator driving
countCommitsBetween: the list of commits yielded, in order, from a stack of
pending commits and a set of already-seen commits. The definition is total:
the traversal provably terminates on every graph, with no fuel and no
iteration cap. -/
def commitLog (g : CommitGraph) (stack seen : List Nat) : List Nat :=
  match stack with
  | [] => []
  | c :: rest =>
    if c ∈ seen then commitLog g rest seen
    else c :: commitLog g (parentsOf g c ++ rest) (c :: seen)
termination_by (unseenCount g seen, stack.length)
decreasing_by
  · apply Prod.Lex.right
    simp
  · by_cases hk : c ∈ g.map Prod.fst
    · exact Prod.Lex.left _ _ (unseenCount_cons_key hk (by assumption))
    · rw [parentsOf_not_key hk]
      have he : unseenCount g (c :: seen) = unseenCount g seen :=
        unseenCount_cons_not_key hk
      rw [he]
      apply Prod.Lex.right
      simp

/-- All commits reachable from `c`, realized as the exhaustive traversal
starting at `c` with nothing seen. -/
def reachableFrom (g : CommitGraph) (c : Nat) : List Nat :=
  commitLog g [c] []

/-- Embedding of the counting loop of countCommitsBetween
(internal/git/git.go): walk the yielded commits, stopping without counting
when the target is encountered, incrementing otherwise; an exhausted walk
returns the full count. -/
def countUntil (visits : List Nat) (target : Nat) : Nat :=
  match visits with
  | [] => 0
  | c :: rest => if c = target then 0 else countUntil rest target + 1

/-- Embedding of countCommitsBetween (internal/git/git.go): zero when the
endpoints coincide, otherwise count commits yielded by the iterator from
`src` until `target` is encountered or history is exhausted. -/
def countCommitsBetween (g : CommitGraph) (src target : Nat) : Nat :=
  if src = target then 0
  else countUntil (reachableFrom g src) target


/-- Reachability in the commit graph. -/
inductive Reaches (g : CommitGraph) : Nat → Nat → Prop
  | refl (a : Nat) : Reaches g a a
  | step {a b p : Nat} : Reaches g a b → p ∈ parentsOf g b → Reaches g a p

lemma Reaches.head {g : CommitGraph} {a p c : Nat}
    (hp : p ∈ parentsOf g a) (h : Reaches g p c) : Reaches g a c := by
  induction h with
  | refl => exact Reaches.step (Reaches.refl a) hp
  | step hr hq ih => exact Reaches.step ih hq

lemma commitLog_nil (g : CommitGraph) (seen : List Nat) :
    commitLog g [] seen = [] := by
  rw [commitLog.eq_def]

lemma commitLog_cons_mem (g : CommitGraph) (c : Nat) (rest seen : List Nat)
    (h : c ∈ seen) : commitLog g (c :: rest) seen = commitLog g rest seen := by
  rw [commitLog.eq_def]
  simp [h]

lemma commitLog_cons_not_mem (g : CommitGraph) (c : Nat) (rest seen : List Nat)
    (h : ¬ c ∈ seen) :
    commitLog g (c :: rest) seen =
      c :: commitLog g (parentsOf g c ++ rest) (c :: seen) := by
  rw [commitLog.eq_def]
  simp [h]

lemma mem_or_seen {g : CommitGraph} {stack seen : List Nat} {a : Nat}
    (ha : a ∈ stack) : a ∈ commitLog g stack seen ∨ a ∈ seen := by
  induction stack, seen using commitLog.induct g with
  | case1 s => cases ha
  | case2 s c rest h ih =>
    rw [commitLog_cons_mem _ _ _ _ h]
    rcases List.mem_cons.mp ha with rfl | hrest
    · exact Or.inr h
    · exact ih hrest
  | case3 s c rest h ih =>
    rw [commitLog_cons_not_mem _ _ _ _ h]
    rcases List.mem_cons.mp ha with rfl | hrest
    · exact Or.inl (List.mem_cons_self _ _)
    · rcases ih (List.mem_append_right _ hrest) with hin | hseen
      · exact Or.inl (List.mem_cons_of_mem _ hin)
      · rcases List.mem_cons.mp hseen with rfl | hs
        · exact Or.inl (List.mem_cons_self _ _)
        · exact Or.inr hs

lemma parents_mem_or_seen {g : CommitGraph} {stack seen : List Nat} {v p : Nat}
    (hv : v ∈ commitLog g stack seen) (hp : p ∈ parentsOf g v) :
    p ∈ commitLog g stack seen ∨ p ∈ seen := by
  induction stack, seen using commitLog.induct g with
  | case1 s => rw [commitLog_nil] at hv; cases hv
  | case2 s c rest h ih =>
    rw [commitLog_cons_mem _ _ _ _ h] at hv ⊢
    exact ih hv
  | case3 s c rest h ih =>
    rw [commitLog_cons_not_mem _ _ _ _ h] at hv ⊢
    rcases List.mem_cons.mp hv with rfl | hv2
    · rcases mem_or_seen (List.mem_append_left _ hp) with hin | hseen
      · exact Or.inl (List.mem_cons_of_mem _ hin)
      · rcases List.mem_cons.mp hseen with rfl | hs
        · exact Or.inl (List.mem_cons_self _ _)
        · exact Or.inr hs
    · rcases ih hv2 with hin | hseen
      · exact Or.inl (List.mem_cons_of_mem _ hin)
      · rcases List.mem_cons.mp hseen with rfl | hs
        · exact Or.inl (List.mem_cons_self _ _)
        · exact Or.inr hs

lemma exists_stack_reaches {g : CommitGraph} {stack seen : List Nat} {c : Nat}
    (hc : c ∈ commitLog g stack seen) : ∃ a ∈ stack, Reaches g a c := by
  induction stack, seen using commitLog.induct g with
  | case1 s => rw [commitLog_nil] at hc; cases hc
  | case2 s x rest h ih =>
    rw [commitLog_cons_mem _ _ _ _ h] at hc
    obtain ⟨a, ha, hr⟩ := ih hc
    exact ⟨a, List.mem_cons_of_mem _ ha, hr⟩
  | case3 s x rest h ih =>
    rw [commitLog_cons_not_mem _ _ _ _ h] at hc
    rcases List.mem_cons.mp hc with rfl | hc2
    · exact ⟨c, List.mem_cons_self _ _, Reaches.refl c⟩
    · obtain ⟨a, ha, hr⟩ := ih hc2
      rcases List.mem_append.mp ha with hpar | hrest
      · exact ⟨x, List.mem_cons_self _ _, Reaches.head hpar hr⟩
      · exact ⟨a, List.mem_cons_of_mem _ hrest, hr⟩

/-- The traversal starting at `a` visits exactly the commits reachable
from `a`: the visit list is sound and complete for graph reachability. -/
lemma mem_reachableFrom_iff {g : CommitGraph} {a c : Nat} :
    c ∈ reachableFrom g a ↔ Reaches g a c := by
  constructor
  · intro hc
    obtain ⟨x, hx, hr⟩ := exists_stack_reaches hc
    rcases List.mem_singleton.mp hx with rfl
    exact hr
  · intro h
    induction h with
    | refl =>
      rcases @mem_or_seen g [a] [] a (List.mem_singleton.mpr rfl) with hin | hseen
      · exact hin
      · cases hseen
    | step hr hp ih =>
      rcases parents_mem_or_seen ih hp with hin | hseen
      · exact hin
      · cases hseen

lemma not_mem_seen_of_mem_commitLog {g : CommitGraph} {stack seen : List Nat}
    {c : Nat} (hc : c ∈ commitLog g stack seen) : ¬ c ∈ seen := by
  induction stack, seen using commitLog.induct g with
  | case1 s => rw [commitLog_nil] at hc; cases hc
  | case2 s x rest h ih =>
    rw [commitLog_cons_mem _ _ _ _ h] at hc
    exact ih hc
  | case3 s x rest h ih =>
    rw [commitLog_cons_not_mem _ _ _ _ h] at hc
    rcases List.mem_cons.mp hc with rfl | hc2
    · exact h
    · intro hcs
      exact ih hc2 (List.mem_cons_of_mem _ hcs)

/-- The traversal never yields the same commit twice. -/
lemma commitLog_nodup (g : CommitGraph) (stack seen : List Nat) :
    (commitLog g stack seen).Nodup := by
  induction stack, seen using commitLog.induct g with
  | case1 s => rw [commitLog_nil]; exact List.nodup_nil
  | case2 s c rest h ih =>
    rw [commitLog_cons_mem _ _ _ _ h]
    exact ih
  | case3 s c rest h ih =>
    rw [commitLog_cons_not_mem _ _ _ _ h]
    refine List.Nodup.cons ?_ ih
    intro hmem
    exact not_mem_seen_of_mem_commitLog hmem (List.mem_cons_self _ _)


/-- Linear history with commits 0..n, each non-root commit having exactly
its predecessor as parent. -/
def chainGraph : Nat → CommitGraph
  | 0 => [(0, [])]
  | n + 1 => (n + 1, [n]) :: chainGraph n

/-- The list n, n-1, ..., 1, 0. -/
def descList : Nat → List Nat
  | 0 => [0]
  | n + 1 => (n + 1) :: descList n

/-- Number of commits reachable from `a` but not reachable from `b`, the
quantity the spec defines the ahead count to be. Reachability is realized
by the exhaustive traversal `reachableFrom`, which visits each reachable
commit exactly once (`mem_reachableFrom_iff`, `commitLog_nodup`). -/
def aheadSpecCount (g : CommitGraph) (a b : Nat) : Nat :=
  ((reachableFrom g a).filter (fun c => decide (¬ c ∈ reachableFrom g b))).length

lemma chainGraph_lookup {n a : Nat} (h : a ≤ n) :
    (chainGraph n).lookup a = some (if a = 0 then [] else [a - 1]) := by
  induction n with
  | zero =>
    have ha : a = 0 := by omega
    subst ha
    simp [chainGraph, List.lookup]
  | succ n ih =>
    by_cases ha : a = n + 1
    · subst ha
      simp [chainGraph, List.lookup]
    · have h2 : a ≤ n := by omega
      have hbeq : (a == n + 1) = false := by simp [ha]
      simp only [chainGraph, List.lookup, hbeq]
      exact ih h2

lemma parentsOf_chainGraph {n a : Nat} (h : a ≤ n) :
    parentsOf (chainGraph n) a = if a = 0 then [] else [a - 1] := by
  simp [parentsOf, chainGraph_lookup h]

lemma commitLog_chainGraph {n : Nat} (a : Nat) :
    ∀ seen, a ≤ n → (∀ k, k ≤ a → ¬ k ∈ seen) →
      commitLog (chainGraph n) [a] seen = descList a := by
  induction a with
  | zero =>
    intro seen h0 hs
    rw [commitLog_cons_not_mem _ _ _ _ (hs 0 le_rfl)]
    rw [parentsOf_chainGraph h0]
    simp [commitLog_nil, descList]
  | succ a ih =>
    intro seen hle hs
    rw [commitLog_cons_not_mem _ _ _ _ (hs (a + 1) le_rfl)]
    rw [parentsOf_chainGraph hle]
    simp only [Nat.succ_ne_zero, if_false, Nat.add_sub_cancel, List.singleton_append]
    rw [descList]
    congr 1
    refine ih ((a + 1) :: seen) (by omega) ?_
    intro k hk hmem
    rcases List.mem_cons.mp hmem with h1 | h2
    · omega
    · exact hs k (by omega) h2

lemma reachableFrom_chainGraph {n a : Nat} (h : a ≤ n) :
    reachableFrom (chainGraph n) a = descList a :=
  commitLog_chainGraph a [] h (fun k _ => List.not_mem_nil k)

lemma mem_descList {a k : Nat} : k ∈ descList a ↔ k ≤ a := by
  induction a with
  | zero => simp [descList, Nat.le_zero]
  | succ a ih =>
    simp only [descList, List.mem_cons, ih]
    omega

lemma countUntil_not_mem {v : List Nat} {t : Nat} (h : ¬ t ∈ v) :
    countUntil v t = v.length := by
  induction v with
  | nil => rfl
  | cons c rest ih =>
    have hct : c ≠ t := fun hh => h (hh ▸ List.mem_cons_self _ _)
    have ih2 := ih (fun hm => h (List.mem_cons_of_mem _ hm))
    simp [countUntil, hct, ih2]

lemma countUntil_append {xs ys : List Nat} {t : Nat} (h : ¬ t ∈ xs) :
    countUntil (xs ++ t :: ys) t = xs.length := by
  induction xs with
  | nil => simp [countUntil]
  | cons c rest ih =>
    have hct : c ≠ t := fun hh => h (hh ▸ List.mem_cons_self _ _)
    have ih2 := ih (fun hm => h (List.mem_cons_of_mem _ hm))
    simp [countUntil, hct, ih2]

lemma countUntil_descList {a b : Nat} (h : b ≤ a) :
    countUntil (descList a) b = a - b := by
  induction a with
  | zero =>
    have hb : b = 0 := by omega
    subst hb
    simp [descList, countUntil]
  | succ a ih =>
    by_cases hb : b = a + 1
    · subst hb
      simp [descList, countUntil]
    · have h2 : b ≤ a := by omega
      have hne : (a + 1) ≠ b := fun hh => hb hh.symm
      rw [descList]
      simp only [countUntil, hne, if_false, ih h2]
      omega

lemma filter_descList_length {a b : Nat} (h : b ≤ a) :
    ((descList a).filter (fun c => decide (¬ c ∈ descList b))).length = a - b := by
  induction a with
  | zero =>
    have hb : b = 0 := by omega
    subst hb
    simp [descList]
  | succ a ih =>
    by_cases hb : b = a + 1
    · subst hb
      have hall : ∀ c ∈ descList (a + 1), ¬ ((fun c => decide (¬ c ∈ descList (a + 1))) c = true) := by
        intro c hc
        simp only [decide_eq_true_eq, not_not]
        exact hc
      rw [List.filter_eq_nil_iff.mpr hall]
      simp
    · have h2 : b ≤ a := by omega
      rw [descList, List.filter_cons]
      have hkeep : (decide (¬ (a + 1) ∈ descList b)) = true := by
        simp only [decide_eq_true_eq, mem_descList]
        omega
      simp only [hkeep, if_true, List.length_cons, ih h2]
      omega


/-! ## Status engine model -/

/-- Per-file status pair, one go-git status code per axis: `staging` is how
the index differs from HEAD, `worktree` is how the worktree differs from
the index. Codes are the byte values used on the wire (32 = unmodified,
63 = untracked). -/
structure FileStat where
  staging : Nat
  worktree : Nat
deriving DecidableEq

/-- Modelled from the spec: the Git Capability cleanliness test used by
GetStatus (go-git Status.IsClean, not part of this repository): the status
is clean iff every entry is unmodified on both axes. -/
def isClean (entries : List (String × FileStat)) : Bool :=
  entries.all (fun e => e.2.staging == 32 && e.2.worktree == 32)

/-- The snapshot returned by GetStatus (Status struct, internal/git/git.go). -/
structure StatusSnapshot where
  clean : Bool
  ahead : Nat
  behind : Nat
  branch : String
  worktree : List (String × FileStat)
deriving DecidableEq

/-- Abstract repository state consulted by GetStatus: whether the
repository opens and HEAD resolves, the short branch name and commit hash
of HEAD, the commit object store, the resolved references by full name,
and the per-file worktree status entries. -/
structure RepoModel where
  validRepo : Bool
  headResolvable : Bool
  headBranch : String
  headHash : Nat
  graph : CommitGraph
  remoteRefs : List (String × Nat)
  entries : List (String × FileStat)

/-- Errors of the status engine. -/
inductive GitErr
  | notARepository
  | headUnresolvable
deriving DecidableEq

/-- Embedding of GetStatus (internal/git/git.go): fail if the repository
does not open or HEAD does not resolve; look up the remote-tracking
reference refs/remotes/origin/<branch>; if it is absent, or either commit
object is missing, ahead and behind stay 0; otherwise both are computed by
countCommitsBetween. The snapshot carries the go-git cleanliness bit and
the raw entries. -/
def GetStatus (r : RepoModel) : Except GitErr StatusSnapshot :=
  if r.validRepo = false then .error .notARepository
  else if r.headResolvable = false then .error .headUnresolvable
  else
    let branchName := r.headBranch
    let ab :=
      match r.remoteRefs.lookup ("refs/remotes/origin/" ++ branchName) with
      | none => (0, 0)
      | some remoteHash =>
        match r.graph.lookup r.headHash with
        | none => (0, 0)
        | some _ =>
          match r.graph.lookup remoteHash with
          | none => (0, 0)
          | some _ =>
            (countCommitsBetween r.graph r.headHash remoteHash,
             countCommitsBetween r.graph remoteHash r.headHash)
    .ok { clean := isClean r.entries, ahead := ab.1, behind := ab.2,
          branch := branchName, worktree := r.entries }

/-! ## Stage and unstage -/

/-- View of one file across the three storage areas (HEAD, index,
worktree); `none` means the file is absent from that area. -/
structure FileView where
  head : Option String
  index : Option String
  worktree : Option String
deriving DecidableEq

/-- Embedding of StageFile (internal/git/git.go, go-git Worktree.Add): the
index entry for the file becomes the worktree content, recording a
deletion when the file is gone from the worktree. -/
def StageFile (s : FileView) : FileView :=
  { s with index := s.worktree }

/-- Embedding of UnstageFile (internal/git/git.go, git reset HEAD carried
out on the single file): the index entry is reset to the HEAD content and
the worktree is untouched. -/
def UnstageFile (s : FileView) : FileView :=
  { s with index := s.head }

/-- A file's staging axis is unmodified when its index entry agrees with
HEAD. -/
def stagingUnmodified (s : FileView) : Prop := s.index = s.head

/-! ## Commit pipeline -/

/-- Errors of the commit pipeline. -/
inductive CommitErr
  | emptyMessage
  | nothingToCommit
deriving DecidableEq

/-- Commit-relevant repository state: the commit messages in history, most
recent first, and whether the index currently matches HEAD. -/
structure CommitRepo where
  history : List String
  indexMatchesHead : Bool
deriving DecidableEq

/-- Modelled from the spec: the Git Capability create-commit call invoked
by Commit (go-git Worktree.Commit, not part of this repository): fails
with NothingToCommit when the index matches HEAD, otherwise records a new
commit. -/
def capCommit (r : CommitRepo) (msg : String) : Except CommitErr CommitRepo :=
  if r.indexMatchesHead then .error .nothingToCommit
  else .ok { history := msg :: r.history, indexMatchesHead := true }

/-- Embedding of handleCommit (internal/api/handlers_git.go) composed with
Commit (internal/git/git.go): an empty message is rejected before the Git
Capability is invoked. Returns the error if any, the resulting repository
state, and whether the Git Capability commit call was made. -/
def handleCommit (r : CommitRepo) (msg : String) :
    Option CommitErr × CommitRepo × Bool :=
  if msg = "" then (some .emptyMessage, r, false)
  else
    match capCommit r msg with
    | .error e => (some e, r, true)
    | .ok r2 => (none, r2, true)

/-! ## Push authentication resolution -/

/-- Remote configuration: its list of URLs. -/
structure RemoteCfg where
  urls : List String
deriving DecidableEq

/-- Errors of authentication resolution. `remoteNotFound` is go-git
ErrRemoteNotFound, returned by r.Remote when origin is absent;
`noRemoteURL` is the "no remote URL configured" failure. -/
inductive AuthErr
  | remoteNotFound
  | noRemoteURL
deriving DecidableEq

/-- The fields getHTTPSAuth (internal/git/git.go) writes to the stdin of
git credential fill. In the source the host field is the string literal
"github.com" inside the fmt.Sprintf format string, and the whole remote
URL is passed as the path field. -/
structure CredentialQuery where
  protocol : String
  host : String
  path : String
deriving DecidableEq

/-- The credential-helper query built by getHTTPSAuth for a remote URL. -/
def getHTTPSAuthQuery (remoteURL : String) : CredentialQuery :=
  { protocol := "https", host := "github.com", path := remoteURL }

/-- The serialized stdin handed to git credential fill. -/
def credFillInput (q : CredentialQuery) : String :=
  "protocol=" ++ q.protocol ++ "\nhost=" ++ q.host ++ "\npath=" ++ q.path ++ "\n\n"

/-- Which authentication mechanism getAuth consults. -/
inductive AuthRequest
  | sshAgentOrKeys
  | credentialFill (q : CredentialQuery)
deriving DecidableEq

/-- Push-relevant repository and environment state: the configured remotes
and the outcome of the network push, the latter consulted only after
authentication resolution succeeds. -/
structure PushRepo where
  remotes : List (String × RemoteCfg)
  remoteOutcome : Except String Unit

/-- Errors of Push. `authFailed` is the wrap Push applies to a getAuth
failure ("failed to get auth" with the cause preserved for inspection);
`remoteFailed` stands for any failure of the network push itself. -/
inductive PushErr
  | authFailed (e : AuthErr)
  | remoteFailed (msg : String)
deriving DecidableEq

/-- Embedding of getAuth (internal/git/git.go) up to the point where an
authentication mechanism is consulted: resolve the origin remote (go-git
ErrRemoteNotFound when absent), take the first configured URL, route URLs
beginning with git@ or ssh:// to SSH, and everything else to the HTTPS
credential helper with the query built by getHTTPSAuth. -/
def getAuth (r : PushRepo) : Except AuthErr AuthRequest :=
  match r.remotes.lookup "origin" with
  | none => .error .remoteNotFound
  | some rc =>
    match rc.urls with
    | [] => .error .noRemoteURL
    | url :: _ =>
      if goHasPref url "git@" || goHasPref url "ssh://" then .ok .sshAgentOrKeys
      else .ok (.credentialFill (getHTTPSAuthQuery url))

/-- Embedding of Push (internal/git/git.go): resolve authentication first;
on failure return the wrapped auth error without attempting the remote
push. The Bool records whether the underlying go-git push was attempted. -/
def Push (r : PushRepo) : Except PushErr Unit × Bool :=
  match getAuth r with
  | .error e => (.error (.authFailed e), false)
  | .ok _ =>
    match r.remoteOutcome with
    | .error msg => (.error (.remoteFailed msg), true)
    | .ok _ => (.ok (), true)


lemma isClean_iff (entries : List (String × FileStat)) :
    isClean entries = true ↔
      (entries = [] ∨ ∀ e ∈ entries, e.2.staging = 32 ∧ e.2.worktree = 32) := by
  constructor
  · intro hcl
    right
    intro e he
    have h1 := List.all_eq_true.mp hcl e he
    simpa using h1
  · rintro (hnil | hall)
    · subst hnil
      rfl
    · apply List.all_eq_true.mpr
      intro e he
      have h := hall e he
      simp [h.1, h.2]

/-- C1: the spec demands that handleGetFile reject every request whose
resolved path falls outside the repository root, and in particular that
GetFileContent of the file parameter "../../etc/passwd" is always
rejected. The code checks strings.HasPrefix of the cleaned joined path
against the cleaned repository path, without requiring a path separator
after the root, so a resolved path that merely shares the root as a string
prefix escapes. For the repository path "/e" the parameter
"../../etc/passwd" resolves to "/etc/passwd", which lies outside the root,
yet the check passes and the accessor reads and serves the file; the
sibling-directory escape for root "/repos/a" is shown as well. -/
theorem handleGetFile_serves_file_outside_root :
    targetPath "/e" "../../etc/passwd" = "/etc/passwd" ∧
    withinRoot "/e" (targetPath "/e" "../../etc/passwd") = false ∧
    pathAllowed "/e" "../../etc/passwd" = true ∧
    handleGetFile (fun p => if p = "/etc/passwd" then some "root:x:0:0" else none)
      "/e" "../../etc/passwd" = .ok "root:x:0:0" ∧
    pathAllowed "/repos/a" "../ab/secret" = true ∧
    withinRoot "/repos/a" (targetPath "/repos/a" "../ab/secret") = false :=
  ⟨by decide, by decide, by decide, rfl, by decide, by decide⟩

/-- C2 counterexample: in the diverged history where commits 1 (local
HEAD) and 2 (remote-tracking) both have the root 0 as parent, the walk
from 1 never encounters 2, so countCommitsBetween returns the full local
history count 2, while exactly one commit (commit 1) is reachable from
local HEAD but not from the remote-tracking commit. The walk-and-count
traversal therefore does not compute the reachability set difference. -/
theorem countCommitsBetween_diverged_cex :
    countCommitsBetween [(1, [0]), (2, [0]), (0, [])] 1 2 = 2 ∧
    aheadSpecCount [(1, [0]), (2, [0]), (0, [])] 1 2 = 1 ∧
    countCommitsBetween [(1, [0]), (2, [0]), (0, [])] 1 2 ≠
      aheadSpecCount [(1, [0]), (2, [0]), (0, [])] 1 2 := by
  have hlog1 : reachableFrom [(1, [0]), (2, [0]), (0, [])] 1 = [1, 0] := by
    simp [reachableFrom, commitLog, parentsOf, List.lookup]
  have hlog2 : reachableFrom [(1, [0]), (2, [0]), (0, [])] 2 = [2, 0] := by
    simp [reachableFrom, commitLog, parentsOf, List.lookup]
  refine ⟨?h1, ?h2, ?h3⟩
  case h1 =>
    rw [countCommitsBetween, if_neg (by decide), hlog1]
    rfl
  case h2 =>
    rw [aheadSpecCount, hlog1, hlog2]
    rfl
  case h3 =>
    rw [countCommitsBetween, if_neg (by decide), hlog1, aheadSpecCount, hlog1, hlog2]
    decide

/-- C2 amended: on a linear history (the chain graph on commits 0..n) with
the remote-tracking commit b an ancestor of local HEAD a, the
walk-and-count traversal countCommitsBetween does compute the reachability
set difference, namely a - b commits; by symmetry of the two calls in
GetStatus the same holds for behind. In a diverged history the equality
fails (see the counterexample), the walk instead returning the full count
of commits reachable from the start, shared ancestors included. -/
theorem countCommitsBetween_linear_eq_spec (n a b : Nat) (hb : b ≤ a) (ha : a ≤ n) :
    countCommitsBetween (chainGraph n) a b = aheadSpecCount (chainGraph n) a b ∧
      countCommitsBetween (chainGraph n) a b = a - b := by
  have hbn : b ≤ n := le_trans hb ha
  have h1 : countCommitsBetween (chainGraph n) a b = a - b := by
    by_cases hab : a = b
    · subst hab
      simp [countCommitsBetween]
    · rw [countCommitsBetween, if_neg hab, reachableFrom_chainGraph ha,
        countUntil_descList hb]
  have h2 : aheadSpecCount (chainGraph n) a b = a - b := by
    rw [aheadSpecCount, reachableFrom_chainGraph ha, reachableFrom_chainGraph hbn,
      filter_descList_length hb]
  exact ⟨h1.trans h2.symm, h1⟩

theorem countCommitsBetween_linear_eq_spec_witness :
    countCommitsBetween (chainGraph 3) 3 1 = aheadSpecCount (chainGraph 3) 3 1 ∧
      countCommitsBetween (chainGraph 3) 3 1 = 2 :=
  countCommitsBetween_linear_eq_spec 3 3 1 (by decide) (by decide)

/-- C3 counterexample: the claim says that when the target commit is never
found the traversal stops at a hard iteration cap and reports the count as
unknown, treated as 0. The code has no cap: on the three-commit chain with
absent target 99 it walks the entire history and reports 3, not 0. -/
theorem countCommitsBetween_uncapped_cex :
    countCommitsBetween [(2, [1]), (1, [0]), (0, [])] 2 99 = 3 ∧
    countCommitsBetween [(2, [1]), (1, [0]), (0, [])] 2 99 ≠ 0 := by
  have hlog : reachableFrom [(2, [1]), (1, [0]), (0, [])] 2 = [2, 1, 0] := by
    simp [reachableFrom, commitLog, parentsOf, List.lookup]
  have h1 : countCommitsBetween [(2, [1]), (1, [0]), (0, [])] 2 99 = 3 := by
    rw [countCommitsBetween, if_neg (by decide), hlog]
    rfl
  exact ⟨h1, by omega⟩

/-- C3 amended: the traversal terminates on every graph (commitLog is a
total function, with no fuel and no iteration cap), it halts the instant
the target commit is encountered — the count is the number of commits
yielded strictly before the first occurrence of the target, whatever
follows it — and in the pathological case where the target is never found
it stops only after exhausting every reachable ancestor, reporting the
full visited count rather than an "unknown, treated as 0" result. -/
theorem countCommitsBetween_terminates (g : CommitGraph) (a b : Nat) (hab : a ≠ b) :
    (∀ xs ys, reachableFrom g a = xs ++ b :: ys → ¬ b ∈ xs →
        countCommitsBetween g a b = xs.length) ∧
    (¬ b ∈ reachableFrom g a →
        countCommitsBetween g a b = (reachableFrom g a).length) := by
  constructor
  · intro xs ys hsplit hnb
    rw [countCommitsBetween, if_neg hab, hsplit, countUntil_append hnb]
  · intro hnb
    rw [countCommitsBetween, if_neg hab, countUntil_not_mem hnb]

theorem countCommitsBetween_terminates_witness :
    countCommitsBetween [(2, [1]), (1, [0]), (0, [])] 2 0 = 2 := by
  have hsplit : reachableFrom [(2, [1]), (1, [0]), (0, [])] 2 = [2, 1] ++ 0 :: [] := by
    simp [reachableFrom, commitLog, parentsOf, List.lookup]
  exact (countCommitsBetween_terminates [(2, [1]), (1, [0]), (0, [])] 2 0
    (by decide)).1 [2, 1] [] hsplit (by decide)

/-- C4: for every repository that opens and whose HEAD resolves, if no
remote-tracking reference refs/remotes/origin/<branch> exists for the
current branch, GetStatus succeeds and the snapshot has ahead = 0 and
behind = 0, regardless of the local commit history. -/
theorem GetStatus_no_remote_tracking_ref (r : RepoModel)
    (hv : r.validRepo = true) (hh : r.headResolvable = true)
    (hr : r.remoteRefs.lookup ("refs/remotes/origin/" ++ r.headBranch) = none) :
    ∃ s, GetStatus r = .ok s ∧ s.ahead = 0 ∧ s.behind = 0 := by
  refine ⟨{ clean := isClean r.entries, ahead := 0, behind := 0,
            branch := r.headBranch, worktree := r.entries }, ?_, rfl, rfl⟩
  rw [GetStatus]
  simp [hv, hh, hr]

theorem GetStatus_no_remote_tracking_ref_witness :
    ∃ s, GetStatus { validRepo := true, headResolvable := true,
                     headBranch := "main", headHash := 5, graph := chainGraph 5,
                     remoteRefs := [], entries := [] } =
        .ok s ∧ s.ahead = 0 ∧ s.behind = 0 :=
  GetStatus_no_remote_tracking_ref _ rfl rfl rfl

/-- C5: an empty commit message is rejected with EmptyMessage by the
handler before the Git Capability commit call is made, leaving the
repository (in particular its commit history) unchanged; a non-empty
message on a repository whose index matches HEAD fails with
NothingToCommit from the capability, again leaving history unchanged. -/
theorem handleCommit_guards (r : CommitRepo) (msg : String) :
    (msg = "" → handleCommit r msg = (some .emptyMessage, r, false)) ∧
    (msg ≠ "" → r.indexMatchesHead = true →
      handleCommit r msg = (some .nothingToCommit, r, true)) := by
  constructor
  · intro h
    simp [handleCommit, h]
  · intro h hclean
    simp [handleCommit, h, capCommit, hclean]

theorem handleCommit_guards_witness :
    handleCommit { history := ["init"], indexMatchesHead := true } "" =
      (some .emptyMessage, { history := ["init"], indexMatchesHead := true }, false) ∧
    handleCommit { history := ["init"], indexMatchesHead := true } "msg" =
      (some .nothingToCommit, { history := ["init"], indexMatchesHead := true }, true) :=
  ⟨(handleCommit_guards _ "").1 rfl,
   (handleCommit_guards _ "msg").2 (by decide) rfl⟩

/-- C6: for every repository, the Clean field of the snapshot returned by
GetStatus is true iff the per-file entries mapping is empty or every entry
is unmodified (code 32) on both the staging and the worktree axes. -/
theorem GetStatus_clean_iff (r : RepoModel) (s : StatusSnapshot)
    (h : GetStatus r = .ok s) :
    s.clean = true ↔
      (s.worktree = [] ∨ ∀ e ∈ s.worktree, e.2.staging = 32 ∧ e.2.worktree = 32) := by
  have hv : r.validRepo = true := by
    by_contra hv
    have hv2 : r.validRepo = false := by
      cases hb : r.validRepo
      · rfl
      · exact absurd hb hv
    rw [GetStatus] at h
    simp [hv2] at h
  have hh : r.headResolvable = true := by
    by_contra hh
    have hh2 : r.headResolvable = false := by
      cases hb : r.headResolvable
      · rfl
      · exact absurd hb hh
    rw [GetStatus] at h
    simp [hv, hh2] at h
  rw [GetStatus] at h
  simp only [hv, hh, Bool.true_eq_false, if_false, Except.ok.injEq] at h
  subst h
  exact isClean_iff r.entries

theorem GetStatus_clean_iff_witness :
    ({ clean := true, ahead := 0, behind := 0, branch := "main",
       worktree := [] } : StatusSnapshot).clean = true :=
  (GetStatus_clean_iff
      { validRepo := true, headResolvable := true, headBranch := "main",
        headHash := 0, graph := [(0, [])], remoteRefs := [], entries := [] }
      { clean := true, ahead := 0, behind := 0, branch := "main", worktree := [] }
      rfl).mpr (Or.inl rfl)

/-- C7 counterexample: when the file was already staged with content
differing from HEAD, Stage followed by Unstage does not restore the
pre-stage index state: the index entry afterwards is the HEAD content,
not the previously staged content. -/
theorem stage_unstage_not_restoring_cex :
    UnstageFile (StageFile { head := some "h", index := some "i", worktree := some "w" }) ≠
      { head := some "h", index := some "i", worktree := some "w" } ∧
    (UnstageFile (StageFile { head := some "h", index := some "i", worktree := some "w" })).index ≠
      ({ head := some "h", index := some "i", worktree := some "w" } : FileView).index := by
  constructor
  · decide
  · decide

/-- C7 amended: Stage(f) followed by Unstage(f), with no intervening
worktree change, always leaves f's staging axis unmodified (the index
entry equals HEAD) and touches neither the worktree nor HEAD content; it
restores the exact pre-stage index state precisely when f's staging axis
was unmodified before the Stage. When f was already staged differently,
the pre-stage index state is not restored (see the counterexample). -/
theorem stage_unstage_roundtrip (s : FileView) :
    (UnstageFile (StageFile s)).index = s.head ∧
    (UnstageFile (StageFile s)).worktree = s.worktree ∧
    (UnstageFile (StageFile s)).head = s.head ∧
    (stagingUnmodified s → UnstageFile (StageFile s) = s) := by
  refine ⟨rfl, rfl, rfl, ?_⟩
  intro h
  unfold stagingUnmodified at h
  cases s
  simp_all [UnstageFile, StageFile]

theorem stage_unstage_roundtrip_witness :
    UnstageFile (StageFile { head := some "h", index := some "h", worktree := some "w" }) =
      { head := some "h", index := some "h", worktree := some "w" } :=
  (stage_unstage_roundtrip _).2.2.2 rfl

/-- C8: staging a file twice in a row with no intervening worktree change
produces exactly the same index state as staging it once: StageFile is
idempotent. -/
theorem stage_idempotent (s : FileView) :
    StageFile (StageFile s) = StageFile s := rfl

/-- C9: Push on a repository with no origin remote configured fails with
the wrapped remote-not-found error — a distinct, inspectable kind, not a
generic network or authentication failure — and the network push is never
attempted. -/
theorem push_no_remote_configured (r : PushRepo)
    (h : r.remotes.lookup "origin" = none) :
    Push r = (.error (.authFailed .remoteNotFound), false) := by
  simp [Push, getAuth, h]

theorem push_no_remote_configured_witness :
    Push { remotes := [("upstream", { urls := ["https://example.com/x.git"] })],
           remoteOutcome := .ok () } =
      (.error (.authFailed .remoteNotFound), false) :=
  push_no_remote_configured _ (by decide)

/-- C10: whenever the first origin URL does not begin with git@ or ssh://,
authentication resolution routes to the HTTPS credential helper, and the
query it issues carries host = "github.com" — a constant, independent of
the host actually named in the remote URL, which is passed only in the
path field. -/
theorem getAuth_https_host_fixed (r : PushRepo) (rc : RemoteCfg)
    (url : String) (rest : List String)
    (hlook : r.remotes.lookup "origin" = some rc)
    (hurls : rc.urls = url :: rest)
    (hssh1 : goHasPref url "git@" = false)
    (hssh2 : goHasPref url "ssh://" = false) :
    getAuth r = .ok (.credentialFill (getHTTPSAuthQuery url)) ∧
    (getHTTPSAuthQuery url).host = "github.com" ∧
    (getHTTPSAuthQuery url).path = url := by
  refine ⟨?_, rfl, rfl⟩
  rw [getAuth, hlook]
  simp [hurls, hssh1, hssh2]

theorem getAuth_https_host_fixed_witness :
    getAuth { remotes := [("origin", { urls := ["https://gitlab.example.com/g.git"] })],
              remoteOutcome := .ok () } =
      .ok (.credentialFill (getHTTPSAuthQuery "https://gitlab.example.com/g.git")) ∧
    (getHTTPSAuthQuery "https://gitlab.example.com/g.git").host = "github.com" ∧
    (getHTTPSAuthQuery "https://gitlab.example.com/g.git").path =
      "https://gitlab.example.com/g.git" :=
  getAuth_https_host_fixed _ _ _ [] (by decide) rfl (by decide) (by decide)

end Gitwapp
